import Mathlib

/-!
Verification of the privateer download-lifecycle reconciliation and
background copy engine.

The definitions below are a shallow embedding of the core engine found in
`src-tauri/src/lib.rs` and of the wire types in
`crates/pb-wire-types/src/lib.rs`:

* `CopyState`, `Destination`, `DownloadEntry`, `TransmissionConfig` mirror the
  wire types crate.
* `check_already_copied`, `detect_destination`, `add_download_ledger`,
  `reconcileStep` / `reconcilePass`, `processEntry` / `runAction` /
  `copyPhase`, `make_trans_client` and `cycleBody` mirror the corresponding
  functions and code sections of `lib.rs`.
* The filesystem is modelled as the set of path strings that currently exist
  (`FS := String → Bool`); the outcome of the recursive copy and the
  filesystem state it leaves behind are oracle parameters, since they depend
  on external I/O.
-/

set_option maxHeartbeats 1000000

namespace Privateer

/-- ASCII-only lowercasing of one character, as done bytewise by Rust
`str::eq_ignore_ascii_case`. -/
def asciiLowerChar (c : Char) : Char :=
  if 'A' ≤ c ∧ c ≤ 'Z' then Char.ofNat (c.toNat + 32) else c

/-- Case-insensitive comparison key of a string. -/
def lowerKey (s : String) : List Char :=
  s.toList.map asciiLowerChar

/-- Embedding of Rust `str::eq_ignore_ascii_case` (used for `info_hash`
comparison throughout `lib.rs`). -/
def eqIgnoreAsciiCase (a b : String) : Bool :=
  lowerKey a == lowerKey b

theorem eqIgnoreAsciiCase_refl (a : String) : eqIgnoreAsciiCase a a = true := by
  simp [eqIgnoreAsciiCase]

/-- `CopyState` from `pb-wire-types`. -/
inductive CopyState
  | NotCopied
  | Copying
  | Copied
  | Failed
deriving DecidableEq

/-- `Destination` from `pb-wire-types`. -/
inductive Destination
  | Movies
  | Shows
deriving DecidableEq

/-- `DownloadEntry` from `pb-wire-types`: one row of the downloads ledger. -/
structure DownloadEntry where
  info_hash : String
  name : String
  destination : Destination
  copy_state : CopyState
deriving DecidableEq

/-- `TransmissionConfig` from `pb-wire-types`. -/
structure TransmissionConfig where
  host : String
  port : Nat
  username : Option String
  password : Option String
  movies_dir : Option String
  shows_dir : Option String
deriving DecidableEq

/-- `TransmissionConfig::dir_for`. -/
def TransmissionConfig.dir_for (c : TransmissionConfig) (dest : Destination) : Option String :=
  match dest with
  | .Movies => c.movies_dir
  | .Shows => c.shows_dir

/-- A filesystem state: which path strings currently exist. -/
abbrev FS := String → Bool

/-- Embedding of `PathBuf::from(dir).join(name)` for the path shapes occurring
here: joining onto the empty string yields the bare `name` (a relative path),
otherwise the two components are separated by a slash. -/
def joinPath (dir name : String) : String :=
  if dir = "" then name
  else if dir.toList.getLast? = some (Char.ofNat 47) then dir ++ name
  else dir ++ "/" ++ name

/-- Embedding of `check_already_copied` (`lib.rs` lines 403-411): probes the
destination directory for an entry named `name`.  Note the source performs no
emptiness check on the configured directory. -/
def check_already_copied (config : TransmissionConfig) (fs : FS)
    (dest : Destination) (name : String) : Bool :=
  match config.dir_for dest with
  | some dir => fs (joinPath dir name)
  | none => false

/-- Embedding of `detect_destination` (`lib.rs` lines 418-433): probes Movies
then Shows, skipping unconfigured or empty directories. -/
def detect_destination (config : TransmissionConfig) (fs : FS)
    (name : String) : Option (Destination × CopyState) :=
  [Destination.Movies, Destination.Shows].findSome? fun dest =>
    match config.dir_for dest with
    | some dir =>
      if dir ≠ "" then
        if fs (joinPath dir name) then some (dest, CopyState.Copied) else none
      else none
    | none => none

/-- Replace the first element satisfying `p` by its image under `f`
(the effect of Rust `iter_mut().find(p)` followed by a mutation). -/
def updateFirst (p : α → Bool) (f : α → α) : List α → List α
  | [] => []
  | a :: as => if p a then f a :: as else a :: updateFirst p f as

/-- The in-place mutation `entry.destination = destination;
entry.copy_state = CopyState::NotCopied` of `add_download`. -/
def setDestNotCopied (destination : Destination) (e : DownloadEntry) : DownloadEntry :=
  { e with destination := destination, copy_state := CopyState.NotCopied }

/-- The in-place mutation `entry.copy_state = CopyState::Copied` of the
reconciliation scan. -/
def setCopied (e : DownloadEntry) : DownloadEntry :=
  { e with copy_state := CopyState.Copied }

/-- The ledger mutation performed by the `add_download` command
(`lib.rs` lines 443-460): update the first entry with a matching
`info_hash` (case-insensitive), or append a fresh `NotCopied` entry. -/
def add_download_ledger (ledger : List DownloadEntry)
    (info_hash name : String) (destination : Destination) : List DownloadEntry :=
  if (ledger.find? fun e => eqIgnoreAsciiCase e.info_hash info_hash).isSome then
    updateFirst (fun e => eqIgnoreAsciiCase e.info_hash info_hash)
      (setDestNotCopied destination) ledger
  else
    ledger ++ [{ info_hash := info_hash, name := name,
                 destination := destination, copy_state := CopyState.NotCopied }]

/-- A torrent as returned by `transmission_rpc`'s `torrent_get` with the field
projection requested by the copy task: every requested field is optional in
the wire representation.  The completion fraction is modelled as a rational. -/
structure TransTorrent where
  hash_string : Option String
  name : Option String
  percent_done : Option ℚ
  download_dir : Option String
deriving DecidableEq

/-- `copy_state ∈ {NotCopied, Failed}`: the states treated as pending by both
reconciliation and the copy phase. -/
def isPending : CopyState → Bool
  | .NotCopied => true
  | .Failed => true
  | _ => false

/-- Locate the live torrent matching an `info_hash`, as done at
`lib.rs` lines 713-718. -/
def findTorrent (torrents : List TransTorrent) (info_hash : String) : Option TransTorrent :=
  torrents.find? fun t => (t.hash_string.map fun h => eqIgnoreAsciiCase h info_hash).getD false

/-- One torrent's worth of the reconciliation scan (`lib.rs` lines 634-681).
Returns the updated ledger and whether it changed. -/
def reconcileStep (config : TransmissionConfig) (fs : FS)
    (ledger : List DownloadEntry) (tt : TransTorrent) : List DownloadEntry × Bool :=
  match tt.hash_string, tt.name with
  | some hash, some name =>
    match ledger.find? fun e => eqIgnoreAsciiCase e.info_hash hash with
    | some entry =>
      if isPending entry.copy_state && check_already_copied config fs entry.destination name then
        (updateFirst (fun e => eqIgnoreAsciiCase e.info_hash hash) setCopied ledger, true)
      else (ledger, false)
    | none =>
      match detect_destination config fs name with
      | some (dest, st) =>
        (ledger ++ [{ info_hash := hash, name := name,
                      destination := dest, copy_state := st }], true)
      | none => (ledger, false)
  | _, _ => (ledger, false)

/-- The full reconciliation pass over every live torrent
(`lib.rs` lines 632-687), threading the `ledger_changed` flag. -/
def reconcilePass (config : TransmissionConfig) (fs : FS)
    (torrents : List TransTorrent) (ledger : List DownloadEntry) :
    List DownloadEntry × Bool :=
  torrents.foldl
    (fun acc tt =>
      let r := reconcileStep config fs acc.1 tt
      (r.1, acc.2 || r.2))
    (ledger, false)

/-- The reconciled ledger. -/
def reconcile (config : TransmissionConfig) (fs : FS)
    (torrents : List TransTorrent) (ledger : List DownloadEntry) : List DownloadEntry :=
  (reconcilePass config fs torrents ledger).1

/-- Where the per-entry processing of the copy phase stops: each constructor
names the `continue`/branch taken in `lib.rs` lines 705-802. -/
inductive EntryAction
  | skipNoTorrent
  | skipNotDone
  | skipNoDownloadDir
  | skipNoDestDir
  | markCopied (dst : String)
  | skipNoSource (src : String)
  | doCopy (src dst : String)
deriving DecidableEq

/-- The per-entry decision chain of the copy phase (`lib.rs` lines 705-772),
up to the point where the recursive copy itself starts. -/
def processEntry (config : TransmissionConfig) (torrents : List TransTorrent)
    (fs : FS) (e : DownloadEntry) : EntryAction :=
  match findTorrent torrents e.info_hash with
  | none => .skipNoTorrent
  | some t =>
    if t.percent_done.getD 0 < 1 then .skipNotDone
    else
      let torrent_name := t.name.getD e.name
      match t.download_dir with
      | none => .skipNoDownloadDir
      | some download_dir =>
        match config.dir_for e.destination with
        | some dest_dir =>
          if dest_dir ≠ "" then
            let src_path := joinPath download_dir torrent_name
            let dst_path := joinPath dest_dir torrent_name
            if fs dst_path then .markCopied dst_path
            else if fs src_path then .doCopy src_path dst_path
            else .skipNoSource src_path
          else .skipNoDestDir
        | none => .skipNoDestDir

/-- `q` lies strictly under the directory `root` (has `root ++ "/"` in front). -/
def pathWithin (root q : String) : Bool :=
  q.toList.take (root.toList.length + 1) == root.toList ++ [Char.ofNat 47]

/-- Recursive removal of a path: the effect of `remove_dir_all` /
`remove_file` on the modelled filesystem. -/
def removeRec (p : String) (fs : FS) : FS :=
  fun q => if q = p ∨ pathWithin p q = true then false else fs q

/-- The failure cleanup of `lib.rs` lines 794-801: if the destination path
exists, attempt to delete it recursively.  The source discards the removal's
own `Result` (`let _ = remove_dir_all/remove_file`), so whether the removal
succeeds is an oracle (`removeOk`); a failed removal leaves the destination
in place (the root of the removed tree is deleted last, so it survives any
failure). -/
def copyCleanup (removeOk : Bool) (dst : String) (fs : FS) : FS :=
  if fs dst then (if removeOk then removeRec dst fs else fs) else fs

/-- Result of acting on one pending entry: its final `copy_state`, the
filesystem it leaves behind, and the sequence of states persisted to the
ledger file while handling it. -/
structure AttemptResult where
  state : CopyState
  fsOut : FS
  persisted : List CopyState

/-- Carry out an `EntryAction` for an entry currently in state `s`
(`lib.rs` lines 755-808).  `fs` is the filesystem seen by the decision chain;
`copyOk` tells whether the recursive copy succeeds, `fsAfterCopy` is the
filesystem state it leaves behind, and `removeOk` whether the failure
cleanup's removal succeeds (all oracles for the external I/O). -/
def runAction (s : CopyState) (fs : FS) (copyOk : Bool) (fsAfterCopy : FS)
    (removeOk : Bool) : EntryAction → AttemptResult
  | .markCopied _ => ⟨CopyState.Copied, fs, [CopyState.Copied]⟩
  | .doCopy _ dst =>
    if copyOk then ⟨CopyState.Copied, fsAfterCopy, [CopyState.Copying, CopyState.Copied]⟩
    else ⟨CopyState.Failed, copyCleanup removeOk dst fsAfterCopy,
          [CopyState.Copying, CopyState.Failed]⟩
  | _ => ⟨s, fs, []⟩

/-- Per-entry oracle for the copy phase: the filesystem seen when the entry
is processed, whether its recursive copy would succeed, the filesystem the
copy leaves behind, and whether the failure cleanup's removal would
succeed. -/
structure Oracle where
  fs : FS
  copyOk : Bool
  fsAfter : FS
  removeOk : Bool

/-- The indices of pending ledger entries (`lib.rs` lines 694-699). -/
def pendingIdxs (ledger : List DownloadEntry) : List Nat :=
  (ledger.enum.filter fun ie => isPending ie.2.copy_state).map Prod.fst

/-- Overwrite the element at index `i` (Rust `ledger[idx] = ...`). -/
def modifyAt (f : α → α) : Nat → List α → List α
  | _, [] => []
  | 0, a :: as => f a :: as
  | i + 1, a :: as => a :: modifyAt f i as

/-- The new value of entry `e` (at index `idx`) after the copy phase
processes it. -/
def phaseUpdate (config : TransmissionConfig) (torrents : List TransTorrent)
    (env : Nat → Oracle) (idx : Nat) (e : DownloadEntry) : DownloadEntry :=
  { e with copy_state :=
      (runAction e.copy_state (env idx).fs (env idx).copyOk (env idx).fsAfter
        (env idx).removeOk (processEntry config torrents (env idx).fs e)).state }

/-- One iteration of the copy phase loop: read the entry at `idx` and
overwrite it with its updated value (a no-op on an out-of-range index,
which cannot occur for a pending index). -/
def phaseStep {α : Type _} (upd : Nat → α → α) (led : List α) (idx : Nat) : List α :=
  match led[idx]? with
  | none => led
  | some e => modifyAt (fun _ => upd idx e) idx led

/-- The copy phase of one cycle (`lib.rs` lines 694-809): process each pending
index in order, overwriting that entry's `copy_state` with the outcome. -/
def copyPhase (config : TransmissionConfig) (torrents : List TransTorrent)
    (env : Nat → Oracle) (ledger : List DownloadEntry) : List DownloadEntry :=
  (pendingIdxs ledger).foldl (phaseStep (phaseUpdate config torrents env)) ledger

/-! ### List helper lemmas -/

theorem updateFirst_find?_self {α : Type _} {p : α → Bool} {f : α → α}
    (hpf : ∀ a, p (f a) = p a) {l : List α} {e : α}
    (h : l.find? p = some e) :
    (updateFirst p f l).find? p = some (f e) := by
  induction l with
  | nil => simp [List.find?] at h
  | cons a as ih =>
    by_cases hpa : p a
    · rw [List.find?_cons_of_pos as hpa] at h
      obtain rfl : a = e := by injection h
      rw [updateFirst, if_pos hpa]
      exact List.find?_cons_of_pos as (by rw [hpf]; exact hpa)
    · rw [List.find?_cons_of_neg as hpa] at h
      rw [updateFirst, if_neg hpa, List.find?_cons_of_neg _ hpa]
      exact ih h

theorem updateFirst_find?_none {α : Type _} {p q : α → Bool} {f : α → α}
    (hqf : ∀ a, q (f a) = q a) {l : List α} :
    (updateFirst p f l).find? q = none ↔ l.find? q = none := by
  induction l with
  | nil => simp [updateFirst]
  | cons a as ih =>
    by_cases hpa : p a
    · rw [updateFirst, if_pos hpa]
      by_cases hqa : q a
      · rw [List.find?_cons_of_pos _ (by rw [hqf]; exact hqa),
          List.find?_cons_of_pos _ hqa]
        simp
      · rw [List.find?_cons_of_neg _ (by rw [hqf]; exact hqa),
          List.find?_cons_of_neg _ hqa]
    · rw [updateFirst, if_neg hpa]
      by_cases hqa : q a
      · rw [List.find?_cons_of_pos _ hqa, List.find?_cons_of_pos _ hqa]
      · rw [List.find?_cons_of_neg _ hqa, List.find?_cons_of_neg _ hqa]
        exact ih

theorem updateFirst_find?_some {α : Type _} {p q : α → Bool} {f : α → α}
    (hqf : ∀ a, q (f a) = q a) {l : List α} {e' : α}
    (h : (updateFirst p f l).find? q = some e') :
    ∃ e, l.find? q = some e ∧ (e' = e ∨ e' = f e) := by
  induction l with
  | nil => simp [updateFirst, List.find?] at h
  | cons a as ih =>
    by_cases hpa : p a
    · rw [updateFirst, if_pos hpa] at h
      by_cases hqa : q a
      · rw [List.find?_cons_of_pos _ (by rw [hqf]; exact hqa)] at h
        obtain rfl : f a = e' := by injection h
        exact ⟨a, List.find?_cons_of_pos as hqa, Or.inr rfl⟩
      · rw [List.find?_cons_of_neg _ (by rw [hqf]; exact hqa)] at h
        exact ⟨e', by rw [List.find?_cons_of_neg as hqa]; exact h, Or.inl rfl⟩
    · rw [updateFirst, if_neg hpa] at h
      by_cases hqa : q a
      · rw [List.find?_cons_of_pos _ hqa] at h
        obtain rfl : a = e' := by injection h
        exact ⟨a, List.find?_cons_of_pos as hqa, Or.inl rfl⟩
      · rw [List.find?_cons_of_neg _ hqa] at h
        obtain ⟨e, he, hor⟩ := ih h
        exact ⟨e, by rw [List.find?_cons_of_neg as hqa]; exact he, hor⟩

theorem getElem?_updateFirst {α : Type _} (p : α → Bool) (f : α → α)
    (l : List α) (i : Nat) :
    (updateFirst p f l)[i]? = l[i]? ∨
      ∃ a, l[i]? = some a ∧ (updateFirst p f l)[i]? = some (f a) ∧
        p a = true ∧ l.find? p = some a := by
  induction l generalizing i with
  | nil => left; simp [updateFirst]
  | cons a as ih =>
    by_cases hpa : p a
    · rw [updateFirst, if_pos hpa]
      cases i with
      | zero =>
        right
        exact ⟨a, List.getElem?_cons_zero, List.getElem?_cons_zero, hpa,
          List.find?_cons_of_pos as hpa⟩
      | succ j => left; simp
    · rw [updateFirst, if_neg hpa]
      cases i with
      | zero => left; simp
      | succ j =>
        rcases ih j with h | ⟨b, hb, hb', hpb, hfind⟩
        · left; simpa using h
        · right
          exact ⟨b, by simpa using hb, by simpa using hb', hpb,
            by rw [List.find?_cons_of_neg as hpa]; exact hfind⟩

theorem updateFirst_getElem?_first {α : Type _} {p : α → Bool} {f : α → α}
    {l : List α} {i : Nat} {e : α}
    (he : l[i]? = some e) (hpe : p e = true)
    (hfirst : ∀ j a, j < i → l[j]? = some a → p a = false) :
    (updateFirst p f l)[i]? = some (f e) := by
  induction l generalizing i with
  | nil => simp at he
  | cons a as ih =>
    cases i with
    | zero =>
      rw [List.getElem?_cons_zero] at he
      obtain rfl : a = e := by injection he
      rw [updateFirst, if_pos hpe]
      exact List.getElem?_cons_zero
    | succ j =>
      have hpa : p a = false :=
        hfirst 0 a (Nat.succ_pos j) List.getElem?_cons_zero
      rw [updateFirst, if_neg (by simp [hpa])]
      have := ih (by simpa using he)
        (fun k b hk hb => hfirst (k + 1) b (Nat.succ_lt_succ hk) (by simpa using hb))
      simpa using this

theorem mem_updateFirst {α : Type _} {p : α → Bool} {f : α → α}
    {l : List α} {b : α} (h : b ∈ updateFirst p f l) :
    b ∈ l ∨ ∃ a, a ∈ l ∧ b = f a := by
  induction l with
  | nil => simp [updateFirst] at h
  | cons a as ih =>
    by_cases hpa : p a
    · rw [updateFirst, if_pos hpa] at h
      rcases List.mem_cons.mp h with rfl | h
      · exact Or.inr ⟨a, List.mem_cons_self a as, rfl⟩
      · exact Or.inl (List.mem_cons_of_mem a h)
    · rw [updateFirst, if_neg hpa] at h
      rcases List.mem_cons.mp h with rfl | h
      · exact Or.inl (List.mem_cons_self b as)
      · rcases ih h with h | ⟨c, hc, rfl⟩
        · exact Or.inl (List.mem_cons_of_mem a h)
        · exact Or.inr ⟨c, List.mem_cons_of_mem a hc, rfl⟩

theorem pairwise_updateFirst {α : Type _} {R : α → α → Prop}
    {p : α → Bool} {f : α → α}
    (h1 : ∀ a b, R a b → R (f a) b) (h2 : ∀ a b, R a b → R a (f b))
    {l : List α} (h : l.Pairwise R) : (updateFirst p f l).Pairwise R := by
  induction l with
  | nil => exact h
  | cons a as ih =>
    rw [List.pairwise_cons] at h
    by_cases hpa : p a
    · rw [updateFirst, if_pos hpa]
      exact List.pairwise_cons.mpr ⟨fun b hb => h1 a b (h.1 b hb), h.2⟩
    · rw [updateFirst, if_neg hpa]
      refine List.pairwise_cons.mpr ⟨fun b hb => ?_, ih h.2⟩
      rcases mem_updateFirst hb with hb | ⟨c, hc, rfl⟩
      · exact h.1 b hb
      · exact h2 a c (h.1 c hc)

theorem getElem?_modifyAt {α : Type _} (f : α → α) (j : Nat) (l : List α) (i : Nat) :
    (modifyAt f j l)[i]? = if i = j then (l[j]?).map f else l[i]? := by
  induction l generalizing i j with
  | nil => simp [modifyAt]
  | cons a as ih =>
    cases j with
    | zero =>
      cases i with
      | zero => simp [modifyAt]
      | succ k => simp [modifyAt]
    | succ j' =>
      cases i with
      | zero => simp [modifyAt]
      | succ k => simpa [modifyAt] using ih j' k

theorem mem_modifyAt {α : Type _} {f : α → α} {j : Nat}
    {l : List α} {b : α} (h : b ∈ modifyAt f j l) :
    b ∈ l ∨ ∃ a, a ∈ l ∧ b = f a := by
  induction l generalizing j with
  | nil => simp [modifyAt] at h
  | cons a as ih =>
    cases j with
    | zero =>
      rcases List.mem_cons.mp h with rfl | h
      · exact Or.inr ⟨a, List.mem_cons_self a as, rfl⟩
      · exact Or.inl (List.mem_cons_of_mem a h)
    | succ j' =>
      rcases List.mem_cons.mp h with rfl | h
      · exact Or.inl (List.mem_cons_self b as)
      · rcases ih h with h | ⟨c, hc, rfl⟩
        · exact Or.inl (List.mem_cons_of_mem a h)
        · exact Or.inr ⟨c, List.mem_cons_of_mem a hc, rfl⟩

theorem pairwise_modifyAt {α : Type _} {R : α → α → Prop} {f : α → α} {j : Nat}
    (h1 : ∀ a b, R a b → R (f a) b) (h2 : ∀ a b, R a b → R a (f b))
    {l : List α} (h : l.Pairwise R) : (modifyAt f j l).Pairwise R := by
  induction l generalizing j with
  | nil => simp [modifyAt]
  | cons a as ih =>
    rw [List.pairwise_cons] at h
    cases j with
    | zero => exact List.pairwise_cons.mpr ⟨fun b hb => h1 a b (h.1 b hb), h.2⟩
    | succ j' =>
      refine List.pairwise_cons.mpr ⟨fun b hb => ?_, ih h.2⟩
      rcases mem_modifyAt hb with hb | ⟨c, hc, rfl⟩
      · exact h.1 b hb
      · exact h2 a c (h.1 c hc)

theorem getElem?_append_of_some {α : Type _} {l l₂ : List α} {i : Nat} {a : α}
    (h : l[i]? = some a) : (l ++ l₂)[i]? = some a := by
  have hi : i < l.length := by
    rcases List.getElem?_eq_some_iff.mp h with ⟨hlt, _⟩
    exact hlt
  rw [List.getElem?_append, if_pos hi]
  exact h

theorem find?_singleton {α : Type _} (p : α → Bool) (a : α) :
    [a].find? p = if p a then some a else none := by
  by_cases h : p a
  · rw [List.find?_cons_of_pos _ h, if_pos h]
  · rw [List.find?_cons_of_neg _ h, if_neg h]
    rfl

/-! ### Reconciliation lemmas -/

/-- The ledger component of one reconciliation step. -/
def reconStep (config : TransmissionConfig) (fs : FS)
    (ledger : List DownloadEntry) (tt : TransTorrent) : List DownloadEntry :=
  (reconcileStep config fs ledger tt).1

theorem reconcilePass_fst (config : TransmissionConfig) (fs : FS)
    (torrents : List TransTorrent) :
    ∀ (l : List DownloadEntry) (b : Bool),
      (torrents.foldl
        (fun acc tt =>
          let r := reconcileStep config fs acc.1 tt
          (r.1, acc.2 || r.2)) (l, b)).1
      = torrents.foldl (reconStep config fs) l := by
  induction torrents with
  | nil => intro l b; rfl
  | cons t ts ih =>
    intro l b
    rw [List.foldl_cons, List.foldl_cons]
    exact ih _ _

theorem reconcile_eq_foldl (config : TransmissionConfig) (fs : FS)
    (torrents : List TransTorrent) (ledger : List DownloadEntry) :
    reconcile config fs torrents ledger = torrents.foldl (reconStep config fs) ledger :=
  reconcilePass_fst config fs torrents ledger false

theorem setCopied_hash (hash : String) (a : DownloadEntry) :
    eqIgnoreAsciiCase (setCopied a).info_hash hash = eqIgnoreAsciiCase a.info_hash hash := rfl

theorem setDestNotCopied_hash (d : Destination) (hash : String) (a : DownloadEntry) :
    eqIgnoreAsciiCase (setDestNotCopied d a).info_hash hash
      = eqIgnoreAsciiCase a.info_hash hash := rfl

theorem detect_destination_copied {config : TransmissionConfig} {fs : FS}
    {name : String} {pr : Destination × CopyState}
    (h : detect_destination config fs name = some pr) : pr.2 = CopyState.Copied := by
  unfold detect_destination at h
  obtain ⟨l₁, dest, l₂, _, hfa, _⟩ := List.findSome?_eq_some_iff.mp h
  cases hdd : config.dir_for dest with
  | none => rw [hdd] at hfa; cases hfa
  | some dir =>
    rw [hdd] at hfa
    dsimp only at hfa
    by_cases hd : dir ≠ ""
    · rw [if_pos hd] at hfa
      by_cases hf2 : fs (joinPath dir name) = true
      · rw [if_pos hf2] at hfa
        obtain rfl : (dest, CopyState.Copied) = pr := Option.some.inj hfa
        rfl
      · rw [if_neg hf2] at hfa
        cases hfa
    · rw [if_neg hd] at hfa
      cases hfa

/-- The torrent `tt` calls for no reconciliation mutation against `ledger`:
either its matching entry is not stale, or it has no matching entry and is
not present at any configured destination. -/
def Settled (config : TransmissionConfig) (fs : FS)
    (ledger : List DownloadEntry) (tt : TransTorrent) : Prop :=
  ∀ hash name, tt.hash_string = some hash → tt.name = some name →
    ((∀ e, (ledger.find? fun e0 => eqIgnoreAsciiCase e0.info_hash hash) = some e →
        ¬(isPending e.copy_state = true ∧
          check_already_copied config fs e.destination name = true)) ∧
     ((ledger.find? fun e0 => eqIgnoreAsciiCase e0.info_hash hash) = none →
        detect_destination config fs name = none))

theorem reconcileStep_of_settled {config : TransmissionConfig} {fs : FS}
    {ledger : List DownloadEntry} {tt : TransTorrent}
    (h : Settled config fs ledger tt) :
    reconcileStep config fs ledger tt = (ledger, false) := by
  cases hh : tt.hash_string with
  | none => simp [reconcileStep, hh]
  | some hash =>
    cases hn : tt.name with
    | none => simp [reconcileStep, hh, hn]
    | some name =>
      obtain ⟨h1, h2⟩ := h hash name hh hn
      simp only [reconcileStep, hh, hn]
      cases hf : ledger.find? (fun e0 => eqIgnoreAsciiCase e0.info_hash hash) with
      | some entry =>
        have hne := h1 entry hf
        have hcond : (isPending entry.copy_state &&
            check_already_copied config fs entry.destination name) = false := by
          cases hp : isPending entry.copy_state <;>
            cases hc : check_already_copied config fs entry.destination name <;>
              simp_all
        simp [hcond]
      | none =>
        simp [h2 hf]

theorem find?_append_singleton_matching (ledger : List DownloadEntry)
    (hash : String) (x : DownloadEntry)
    (hf : ledger.find? (fun e0 => eqIgnoreAsciiCase e0.info_hash hash) = none)
    (hx : eqIgnoreAsciiCase x.info_hash hash = true) :
    (ledger ++ [x]).find? (fun e0 => eqIgnoreAsciiCase e0.info_hash hash) = some x := by
  rw [List.find?_append, hf, Option.none_or]
  exact List.find?_cons_of_pos _ hx

theorem settled_reconcileStep (config : TransmissionConfig) (fs : FS)
    (ledger : List DownloadEntry) (tt : TransTorrent) :
    Settled config fs (reconStep config fs ledger tt) tt := by
  intro hash name hh hn
  simp only [reconStep, reconcileStep, hh, hn]
  cases hf : ledger.find? (fun e0 => eqIgnoreAsciiCase e0.info_hash hash) with
  | some entry =>
    by_cases hcond : (isPending entry.copy_state &&
        check_already_copied config fs entry.destination name) = true
    · simp only [hcond, if_pos]
      constructor
      · intro e hfe
        rw [updateFirst_find?_self (setCopied_hash hash) hf] at hfe
        obtain rfl := Option.some.inj hfe
        simp [setCopied, isPending]
      · intro hnone
        rw [updateFirst_find?_none (setCopied_hash hash), hf] at hnone
        exact absurd hnone (by simp)
    · rw [Bool.not_eq_true] at hcond
      simp only [hcond, Bool.false_eq_true, if_false]
      constructor
      · intro e hfe
        rw [hf] at hfe
        obtain rfl := Option.some.inj hfe
        intro ⟨hp, hc⟩
        rw [hp, hc] at hcond
        simp at hcond
      · intro hnone
        rw [hf] at hnone
        exact absurd hnone (by simp)
  | none =>
    cases hdet : detect_destination config fs name with
    | some pr =>
      obtain ⟨dest, st⟩ := pr
      have hst : st = CopyState.Copied := detect_destination_copied hdet
      subst hst
      simp only [hdet]
      constructor
      · intro e hfe
        rw [find?_append_singleton_matching ledger hash _ hf
          (eqIgnoreAsciiCase_refl hash)] at hfe
        obtain rfl := Option.some.inj hfe
        simp [isPending]
      · intro hnone
        rw [find?_append_singleton_matching ledger hash _ hf
          (eqIgnoreAsciiCase_refl hash)] at hnone
        exact absurd hnone (by simp)
    | none =>
      simp only [hdet]
      constructor
      · intro e hfe
        rw [hf] at hfe
        exact absurd hfe (by simp)
      · intro _
        trivial

theorem settled_preserved (config : TransmissionConfig) (fs : FS)
    {ledger : List DownloadEntry} {tt : TransTorrent}
    (h : Settled config fs ledger tt) (tt' : TransTorrent) :
    Settled config fs (reconStep config fs ledger tt') tt := by
  intro hash name hh hn
  obtain ⟨h1, h2⟩ := h hash name hh hn
  cases hh' : tt'.hash_string with
  | none =>
    simp only [reconStep, reconcileStep, hh']
    exact ⟨h1, h2⟩
  | some hash' =>
    cases hn' : tt'.name with
    | none =>
      simp only [reconStep, reconcileStep, hh', hn']
      exact ⟨h1, h2⟩
    | some name' =>
      simp only [reconStep, reconcileStep, hh', hn']
      cases hf' : ledger.find? (fun e0 => eqIgnoreAsciiCase e0.info_hash hash') with
      | some entry =>
        by_cases hcond : (isPending entry.copy_state &&
            check_already_copied config fs entry.destination name') = true
        · simp only [hcond, if_pos]
          constructor
          · intro e hfe
            obtain ⟨e0, he0, hor⟩ := updateFirst_find?_some (setCopied_hash hash) hfe
            rcases hor with rfl | rfl
            · exact h1 _ he0
            · simp [setCopied, isPending]
          · intro hnone
            rw [updateFirst_find?_none (setCopied_hash hash)] at hnone
            exact h2 hnone
        · rw [Bool.not_eq_true] at hcond
          simp only [hcond, Bool.false_eq_true, if_false]
          exact ⟨h1, h2⟩
      | none =>
        cases hdet : detect_destination config fs name' with
        | some pr =>
          obtain ⟨dest, st⟩ := pr
          have hst : st = CopyState.Copied := detect_destination_copied hdet
          subst hst
          simp only [hdet]
          constructor
          · intro e hfe
            rw [List.find?_append] at hfe
            cases hfl : ledger.find? (fun e0 => eqIgnoreAsciiCase e0.info_hash hash) with
            | some e0 =>
              rw [hfl] at hfe
              obtain rfl := Option.some.inj hfe
              exact h1 _ hfl
            | none =>
              rw [hfl, Option.none_or, find?_singleton] at hfe
              by_cases hpnew : eqIgnoreAsciiCase hash' hash = true
              · rw [if_pos hpnew] at hfe
                obtain rfl := Option.some.inj hfe
                simp [isPending]
              · rw [if_neg hpnew] at hfe
                exact absurd hfe (by simp)
          · intro hnone
            rw [List.find?_append] at hnone
            rcases Option.or_eq_none.mp hnone with ⟨hl, _⟩
            exact h2 hl
        | none =>
          simp only [hdet]
          exact ⟨h1, h2⟩

theorem settled_foldl (config : TransmissionConfig) (fs : FS)
    {tt : TransTorrent} :
    ∀ (ts : List TransTorrent) (l : List DownloadEntry),
      Settled config fs l tt →
      Settled config fs (ts.foldl (reconStep config fs) l) tt := by
  intro ts
  induction ts with
  | nil => intro l h; exact h
  | cons t ts ih =>
    intro l h
    rw [List.foldl_cons]
    exact ih _ (settled_preserved config fs h t)

theorem settled_all (config : TransmissionConfig) (fs : FS) :
    ∀ (ts : List TransTorrent) (l : List DownloadEntry) (tt : TransTorrent),
      tt ∈ ts → Settled config fs (ts.foldl (reconStep config fs) l) tt := by
  intro ts
  induction ts with
  | nil => intro l tt h; simp at h
  | cons t ts ih =>
    intro l tt h
    rw [List.foldl_cons]
    rcases List.mem_cons.mp h with rfl | h
    · exact settled_foldl config fs ts _ (settled_reconcileStep config fs l tt)
    · exact ih _ tt h

theorem reconcilePass_of_all_settled (config : TransmissionConfig) (fs : FS) :
    ∀ (ts : List TransTorrent) (l : List DownloadEntry),
      (∀ tt ∈ ts, Settled config fs l tt) →
      reconcilePass config fs ts l = (l, false) := by
  intro ts
  induction ts with
  | nil => intro l _; rfl
  | cons t ts ih =>
    intro l h
    have hstep := reconcileStep_of_settled (h t (List.mem_cons_self t ts))
    have ih' := ih l (fun tt h' => h tt (List.mem_cons_of_mem t h'))
    unfold reconcilePass at ih' ⊢
    rw [List.foldl_cons]
    simpa [hstep] using ih'

/-! ### Copy-phase lemmas -/

theorem pendingIdxs_nodup (l : List DownloadEntry) : (pendingIdxs l).Nodup := by
  have hsub : List.Sublist
      ((l.enum.filter fun ie => isPending ie.2.copy_state).map Prod.fst)
      (l.enum.map Prod.fst) := (List.filter_sublist l.enum).map Prod.fst
  exact hsub.nodup (List.nodup_enum_map_fst l)

theorem mem_pendingIdxs {l : List DownloadEntry} {i : Nat} :
    i ∈ pendingIdxs l ↔ ∃ e, l[i]? = some e ∧ isPending e.copy_state = true := by
  constructor
  · intro h
    rcases List.mem_map.mp h with ⟨⟨j, e⟩, hmem, hj⟩
    rcases List.mem_filter.mp hmem with ⟨henum, hpend⟩
    obtain rfl : j = i := hj
    exact ⟨e, List.mk_mem_enum_iff_getElem?.mp henum, hpend⟩
  · rintro ⟨e, he, hpend⟩
    exact List.mem_map.mpr ⟨(i, e),
      List.mem_filter.mpr ⟨List.mk_mem_enum_iff_getElem?.mpr he, hpend⟩, rfl⟩

theorem foldl_modify_getElem? {α : Type _} (upd : Nat → α → α) (idxs : List Nat) :
    idxs.Nodup → ∀ (l : List α) (i : Nat),
      (idxs.foldl (phaseStep upd) l)[i]? =
      if i ∈ idxs then (l[i]?).map (upd i) else l[i]? := by
  induction idxs with
  | nil => intro _ l i; simp
  | cons j rest ih =>
    intro hnd l i
    rw [List.nodup_cons] at hnd
    rw [List.foldl_cons]
    have hstep : ∀ i', (phaseStep upd l j)[i']? =
        if i' = j then (l[i']?).map (upd j) else l[i']? := by
      intro i'
      unfold phaseStep
      cases hlj : l[j]? with
      | none =>
        by_cases hij : i' = j
        · subst hij; simp [hlj]
        · simp [hij]
      | some e =>
        rw [getElem?_modifyAt]
        by_cases hij : i' = j
        · subst hij; simp [hlj]
        · simp [hij]
    rw [ih hnd.2]
    by_cases hmem : i ∈ rest
    · rw [if_pos hmem, if_pos (List.mem_cons_of_mem j hmem)]
      rw [hstep i, if_neg (by rintro rfl; exact hnd.1 hmem)]
    · rw [if_neg hmem]
      by_cases hij : i = j
      · subst hij
        rw [if_pos (List.mem_cons_self i rest), hstep i, if_pos rfl]
      · rw [hstep i, if_neg hij, if_neg (by simp [hij, hmem])]

theorem copyPhase_getElem? (config : TransmissionConfig) (torrents : List TransTorrent)
    (env : Nat → Oracle) (ledger : List DownloadEntry) (i : Nat) :
    (copyPhase config torrents env ledger)[i]? =
    if i ∈ pendingIdxs ledger then
      (ledger[i]?).map (phaseUpdate config torrents env i)
    else ledger[i]? := by
  unfold copyPhase
  exact foldl_modify_getElem? (phaseUpdate config torrents env) (pendingIdxs ledger)
    (pendingIdxs_nodup ledger) ledger i

theorem copyPhase_pending {config : TransmissionConfig} {torrents : List TransTorrent}
    {env : Nat → Oracle} {ledger : List DownloadEntry} {i : Nat} {e : DownloadEntry}
    (he : ledger[i]? = some e) (hp : isPending e.copy_state = true) :
    (copyPhase config torrents env ledger)[i]? =
      some (phaseUpdate config torrents env i e) := by
  rw [copyPhase_getElem?, if_pos (mem_pendingIdxs.mpr ⟨e, he, hp⟩), he]
  rfl

theorem copyPhase_notPending {config : TransmissionConfig} {torrents : List TransTorrent}
    {env : Nat → Oracle} {ledger : List DownloadEntry} {i : Nat} {e : DownloadEntry}
    (he : ledger[i]? = some e) (hp : isPending e.copy_state = false) :
    (copyPhase config torrents env ledger)[i]? = some e := by
  rw [copyPhase_getElem?, if_neg, he]
  intro hmem
  rcases mem_pendingIdxs.mp hmem with ⟨e', he', hp'⟩
  rw [he] at he'
  obtain rfl := Option.some.inj he'
  rw [hp] at hp'
  exact Bool.false_ne_true hp'

/-- Relation between a ledger entry and its image under reconciliation:
either untouched, or a pending entry rewritten to `Copied`. -/
def ReconRel (e e' : DownloadEntry) : Prop :=
  e' = e ∨ (isPending e.copy_state = true ∧ e' = setCopied e)

theorem reconRel_refl (e : DownloadEntry) : ReconRel e e := Or.inl rfl

theorem reconRel_trans {a b c : DownloadEntry}
    (h1 : ReconRel a b) (h2 : ReconRel b c) : ReconRel a c := by
  rcases h1 with rfl | ⟨hp, rfl⟩
  · exact h2
  · rcases h2 with rfl | ⟨hp2, rfl⟩
    · exact Or.inr ⟨hp, rfl⟩
    · simp [setCopied, isPending] at hp2

theorem reconStep_getElem? (config : TransmissionConfig) (fs : FS)
    (ledger : List DownloadEntry) (tt : TransTorrent) (i : Nat) (e : DownloadEntry)
    (he : ledger[i]? = some e) :
    ∃ e', (reconStep config fs ledger tt)[i]? = some e' ∧ ReconRel e e' := by
  cases hh : tt.hash_string with
  | none => exact ⟨e, by simp [reconStep, reconcileStep, hh, he], reconRel_refl e⟩
  | some hash =>
    cases hn : tt.name with
    | none => exact ⟨e, by simp [reconStep, reconcileStep, hh, hn, he], reconRel_refl e⟩
    | some name =>
      simp only [reconStep, reconcileStep, hh, hn]
      cases hf : ledger.find? (fun e0 => eqIgnoreAsciiCase e0.info_hash hash) with
      | some entry =>
        by_cases hcond : (isPending entry.copy_state &&
            check_already_copied config fs entry.destination name) = true
        · simp only [hcond, if_pos]
          rcases getElem?_updateFirst (fun e0 => eqIgnoreAsciiCase e0.info_hash hash)
              setCopied ledger i with hsame | ⟨a, ha, ha', hpa, hfind⟩
          · exact ⟨e, by rw [hsame, he], reconRel_refl e⟩
          · rw [he] at ha
            obtain rfl := Option.some.inj ha
            rw [hf] at hfind
            obtain rfl := Option.some.inj hfind
            refine ⟨_, ha', Or.inr ⟨?_, rfl⟩⟩
            simp only [Bool.and_eq_true] at hcond
            exact hcond.1
        · rw [Bool.not_eq_true] at hcond
          simp only [hcond, Bool.false_eq_true, if_false]
          exact ⟨e, he, reconRel_refl e⟩
      | none =>
        cases hdet : detect_destination config fs name with
        | some pr =>
          obtain ⟨dest, st⟩ := pr
          simp only [hdet]
          exact ⟨e, getElem?_append_of_some he, reconRel_refl e⟩
        | none =>
          simp only [hdet]
          exact ⟨e, he, reconRel_refl e⟩

theorem foldl_reconStep_getElem? (config : TransmissionConfig) (fs : FS) :
    ∀ (torrents : List TransTorrent) (ledger : List DownloadEntry)
      (i : Nat) (e : DownloadEntry), ledger[i]? = some e →
      ∃ e', (torrents.foldl (reconStep config fs) ledger)[i]? = some e' ∧ ReconRel e e' := by
  intro torrents
  induction torrents with
  | nil => intro ledger i e he; exact ⟨e, he, reconRel_refl e⟩
  | cons t ts ih =>
    intro ledger i e he
    rw [List.foldl_cons]
    obtain ⟨e1, he1, hrel1⟩ := reconStep_getElem? config fs ledger t i e he
    obtain ⟨e', he', hrel2⟩ := ih _ i e1 he1
    exact ⟨e', he', reconRel_trans hrel1 hrel2⟩

theorem reconcile_getElem? (config : TransmissionConfig) (fs : FS)
    (torrents : List TransTorrent) (ledger : List DownloadEntry)
    (i : Nat) (e : DownloadEntry) (he : ledger[i]? = some e) :
    ∃ e', (reconcile config fs torrents ledger)[i]? = some e' ∧ ReconRel e e' := by
  rw [reconcile_eq_foldl]
  exact foldl_reconStep_getElem? config fs torrents ledger i e he

/-! ### Copy-state edge relations -/

/-- The four copy-state edges named by the spec's testable property. -/
def claimEdge : CopyState → CopyState → Bool
  | .NotCopied, .Copying => true
  | .Copying, .Copied => true
  | .Copying, .Failed => true
  | .Failed, .Copying => true
  | _, _ => false

/-- The copy-state edges actually realised by the background cycle: the four
claimed ones plus the direct pending-to-`Copied` edges taken by reconciliation
and by the destination-already-exists short circuit. -/
def cycleEdge : CopyState → CopyState → Bool
  | .NotCopied, .Copying => true
  | .Copying, .Copied => true
  | .Copying, .Failed => true
  | .Failed, .Copying => true
  | .NotCopied, .Copied => true
  | .Failed, .Copied => true
  | _, _ => false

/-- The eligibility test of the copy phase: the entry is pending and its
per-entry processing is not cut short by one of the three candidate checks
(no matching live torrent, completion below 1.0, no daemon source
directory). -/
def copyCandidate (config : TransmissionConfig) (torrents : List TransTorrent)
    (fs : FS) (e : DownloadEntry) : Bool :=
  isPending e.copy_state &&
    match processEntry config torrents fs e with
    | .skipNoTorrent => false
    | .skipNotDone => false
    | .skipNoDownloadDir => false
    | _ => true

/-! ### The add_download command over (in-memory, on-disk) ledger pair -/

set_option linter.unusedVariables false in
/-- The full `add_download` command (`lib.rs` lines 435-468) acting on the
pair of the long-lived in-memory ledger (behind the `App` mutex) and the
ledger file contents: it mutates the in-memory ledger and overwrites the
file with the result.  It performs no reload from the file. -/
def add_download_op (mem disk : List DownloadEntry)
    (info_hash name : String) (destination : Destination) :
    List DownloadEntry × List DownloadEntry :=
  let mem' := add_download_ledger mem info_hash name destination
  (mem', mem')

/-- Modelled from the spec: the reload-before-mutate discipline §5 describes
for the "track a new download" operation — the mutation is applied to the
ledger as re-read from the backing file, and that result is written back. -/
def add_download_spec_disk (disk : List DownloadEntry)
    (info_hash name : String) (destination : Destination) : List DownloadEntry :=
  add_download_ledger disk info_hash name destination

/-! ### Scheduler cycle model -/

/-- Errors of the Transmission adapter (`error.rs`, `TransmissionError`). -/
inductive TransmissionError
  | InvalidUrl (url : String)
  | Connection (message : String)
  | Rpc (message : String)
deriving DecidableEq

/-- A built Transmission client handle: the parsed URL and optional
basic-auth credentials. -/
structure TransClient where
  url : String
  auth : Option (String × String)
deriving DecidableEq

/-- The URL string built by `make_trans_client` (`lib.rs` line 99). -/
def transUrlString (config : TransmissionConfig) : String :=
  "http://" ++ config.host ++ ":" ++ toString config.port ++ "/transmission/rpc"

/-- Embedding of `make_trans_client` (`lib.rs` lines 98-121).  Whether the
URL string parses is an oracle (`parseUrl`), since it depends on the `url`
crate's grammar; on failure the function returns `InvalidUrl` without any
network activity. -/
def make_trans_client (parseUrl : String → Bool) (config : TransmissionConfig) :
    Except TransmissionError TransClient :=
  let url_str := transUrlString config
  if parseUrl url_str then
    Except.ok
      (match config.username, config.password with
       | some user, some password =>
         if user ≠ "" then { url := url_str, auth := some (user, password) }
         else { url := url_str, auth := none }
       | _, _ => { url := url_str, auth := none })
  else Except.error (TransmissionError.InvalidUrl url_str)

/-- A `torrent_get` response: the RPC-level success flag, the daemon's
result string and the returned torrents. -/
structure RpcResponse where
  ok : Bool
  result : String
  torrents : List TransTorrent

/-- Why a cycle of the background task gave up early
(the `continue`s at `lib.rs` lines 593-620). -/
inductive CycleAbort
  | connect (e : TransmissionError)
  | fetch (message : String)
  | rpc (message : String)

/-- Outcome of one cycle of the background copy task: the ledger as left on
disk, how many ledger saves were performed, and whether (and why) the cycle
aborted early. -/
structure CycleResult where
  ledger : List DownloadEntry
  saveCount : Nat
  abort : Option CycleAbort

/-- Number of ledger saves the copy phase performs (one per persisted state
of each processed entry). -/
def cyclePhaseSaves (config : TransmissionConfig) (torrents : List TransTorrent)
    (env : Nat → Oracle) (ledger : List DownloadEntry) : Nat :=
  ((pendingIdxs ledger).map fun i =>
    match ledger[i]? with
    | some e => ((runAction e.copy_state (env i).fs (env i).copyOk (env i).fsAfter
        (env i).removeOk (processEntry config torrents (env i).fs e)).persisted).length
    | none => 0).sum

/-- One iteration of `copy_task_from_disk` after the wake
(`lib.rs` lines 588-809): build the client, fetch live torrents, check the
RPC flag, then reconcile (saving once if anything changed) and run the copy
phase.  Any failure before reconciliation leaves the on-disk ledger untouched
and performs no save. -/
def cycleBody (parseUrl : String → Bool) (fetch : Except String RpcResponse)
    (config : TransmissionConfig) (fs : FS) (env : Nat → Oracle)
    (ledger : List DownloadEntry) : CycleResult :=
  match make_trans_client parseUrl config with
  | .error e => { ledger := ledger, saveCount := 0, abort := some (CycleAbort.connect e) }
  | .ok _ =>
    match fetch with
    | .error msg => { ledger := ledger, saveCount := 0, abort := some (CycleAbort.fetch msg) }
    | .ok resp =>
      if resp.ok then
        let pr := reconcilePass config fs resp.torrents ledger
        { ledger := copyPhase config resp.torrents env pr.1,
          saveCount := (if pr.2 then 1 else 0) + cyclePhaseSaves config resp.torrents env pr.1,
          abort := none }
      else { ledger := ledger, saveCount := 0, abort := some (CycleAbort.rpc resp.result) }

/-- Modelled from the spec: the spec's error taxonomy §7 places "malformed
or unreachable daemon address" in the `ConnectionError` class; `Rpc` is the
separate `RpcError` class. -/
def connectionClassError : TransmissionError → Bool
  | .InvalidUrl _ => true
  | .Connection _ => true
  | .Rpc _ => false

/-- Parents exist whenever a child path exists: `fs` cannot contain a path
strictly under `p` while lacking `p` itself. -/
def FSWellFormed (fs : FS) : Prop :=
  ∀ p q, pathWithin p q = true → fs q = true → fs p = true

/-! ### Sample values for concrete witnesses -/

/-- Sample configuration: Movies directory configured, Shows not. -/
def sampleConfig : TransmissionConfig :=
  { host := "localhost", port := 9091, username := none, password := none,
    movies_dir := some "/movies", shows_dir := none }

/-- Sample filesystem: exactly the daemon-side source path exists. -/
def sampleFS : FS := fun q => q == "/dl/film"

/-- Sample pending ledger entry. -/
def sampleEntry : DownloadEntry :=
  { info_hash := "ab", name := "film", destination := Destination.Movies,
    copy_state := CopyState.NotCopied }

/-- Sample live torrent matching `sampleEntry` case-insensitively, complete,
with a source directory. -/
def sampleTorrent : TransTorrent :=
  { hash_string := some "AB", name := some "film", percent_done := some 1,
    download_dir := some "/dl" }

/-- Sample per-entry oracle. -/
def sampleOracle : Oracle :=
  { fs := sampleFS, copyOk := true, fsAfter := fun _ => false, removeOk := true }

/-- Sample entry already in the `Copied` state. -/
def copiedEntry : DownloadEntry :=
  { info_hash := "AB", name := "film", destination := Destination.Shows,
    copy_state := CopyState.Copied }

/-- An entry present only in the ledger file (e.g. written there by the
background loop after the application started). -/
def diskOnlyEntry : DownloadEntry :=
  { info_hash := "cd", name := "other", destination := Destination.Shows,
    copy_state := CopyState.Copied }

/-- Configuration whose Movies directory is configured as the empty string. -/
def emptyDirConfig : TransmissionConfig :=
  { host := "localhost", port := 9091, username := none, password := none,
    movies_dir := some "", shows_dir := none }

/-! ### Claim theorems -/

/-- Claim C5: the Reconciler is idempotent — with the same live-torrent data
and filesystem state, a second reconciliation pass over an already-reconciled
ledger returns it unchanged and reports no further mutation (so no save is
triggered). -/
theorem reconciler_idempotent (config : TransmissionConfig) (fs : FS)
    (torrents : List TransTorrent) (ledger : List DownloadEntry) :
    reconcilePass config fs torrents (reconcile config fs torrents ledger) =
      (reconcile config fs torrents ledger, false) := by
  apply reconcilePass_of_all_settled
  intro tt hmem
  rw [reconcile_eq_foldl]
  exact settled_all config fs torrents ledger tt hmem

/-- Claim C6: reconciliation leaves entries in state `Copying` or `Copied`
completely unchanged, and for any entry it does modify it only rewrites
`copy_state`, never the identity, display name or destination. -/
theorem reconcile_frame (config : TransmissionConfig) (fs : FS)
    (torrents : List TransTorrent) (ledger : List DownloadEntry)
    (i : Nat) (e : DownloadEntry) (he : ledger[i]? = some e) :
    ∃ e', (reconcile config fs torrents ledger)[i]? = some e' ∧
      e'.info_hash = e.info_hash ∧ e'.name = e.name ∧
      e'.destination = e.destination ∧
      ((e.copy_state = CopyState.Copying ∨ e.copy_state = CopyState.Copied) →
        e' = e) := by
  obtain ⟨e', he', hrel⟩ := reconcile_getElem? config fs torrents ledger i e he
  refine ⟨e', he', ?_⟩
  rcases hrel with rfl | ⟨hp, rfl⟩
  · exact ⟨rfl, rfl, rfl, fun _ => rfl⟩
  · refine ⟨rfl, rfl, rfl, fun hst => ?_⟩
    rcases hst with hst | hst <;> rw [hst] at hp <;> simp [isPending] at hp

theorem reconcile_frame_witness :
    ∃ e', (reconcile sampleConfig sampleFS [sampleTorrent] [sampleEntry])[0]? = some e' ∧
      e'.info_hash = sampleEntry.info_hash ∧ e'.name = sampleEntry.name ∧
      e'.destination = sampleEntry.destination ∧
      ((sampleEntry.copy_state = CopyState.Copying ∨
        sampleEntry.copy_state = CopyState.Copied) → e' = sampleEntry) :=
  reconcile_frame sampleConfig sampleFS [sampleTorrent] [sampleEntry] 0 sampleEntry rfl

/-- Claim C7 counterexample: with `movies_dir` configured as the empty string
and a filesystem in which the bare relative path `"item"` exists, the probe
returns `true` — not `false` as the claim requires whenever the configured
directory string is empty. -/
theorem check_already_copied_empty_dir_counterexample :
    emptyDirConfig.dir_for Destination.Movies = some "" ∧
    check_already_copied emptyDirConfig (fun q => q == "item")
      Destination.Movies "item" = true := by
  constructor
  · rfl
  · decide

/-- Claim C7 (amended): `check_already_copied` returns true iff the
directory for the destination is configured at all — even as the empty
string — and an entry named `name` exists at the joined path; an empty
configured directory makes it probe the bare relative `name` rather than
return false. -/
theorem check_already_copied_iff (config : TransmissionConfig) (fs : FS)
    (dest : Destination) (name : String) :
    check_already_copied config fs dest name = true ↔
      ∃ dir, config.dir_for dest = some dir ∧ fs (joinPath dir name) = true := by
  unfold check_already_copied
  cases h : config.dir_for dest with
  | none => simp
  | some dir => simp

/-- Claim C9: if the Transmission URL fails to parse, the cycle aborts
before any reconciliation or copy work — the on-disk ledger is returned
unchanged, no save is performed, and the logged failure is in the spec's
connection-error class. -/
theorem malformed_url_aborts_cycle (parseUrl : String → Bool)
    (fetch : Except String RpcResponse) (config : TransmissionConfig)
    (fs : FS) (env : Nat → Oracle) (ledger : List DownloadEntry)
    (hbad : parseUrl (transUrlString config) = false) :
    cycleBody parseUrl fetch config fs env ledger =
      { ledger := ledger, saveCount := 0,
        abort := some (CycleAbort.connect
          (TransmissionError.InvalidUrl (transUrlString config))) } ∧
    connectionClassError (TransmissionError.InvalidUrl (transUrlString config))
      = true := by
  constructor
  · simp [cycleBody, make_trans_client, hbad]
  · rfl

theorem malformed_url_aborts_cycle_witness :
    cycleBody (fun _ => false) (Except.error "net") sampleConfig sampleFS
        (fun _ => sampleOracle) [sampleEntry] =
      { ledger := [sampleEntry], saveCount := 0,
        abort := some (CycleAbort.connect
          (TransmissionError.InvalidUrl (transUrlString sampleConfig))) } ∧
    connectionClassError (TransmissionError.InvalidUrl (transUrlString sampleConfig))
      = true :=
  malformed_url_aborts_cycle (fun _ => false) (Except.error "net") sampleConfig
    sampleFS (fun _ => sampleOracle) [sampleEntry] rfl

/-- Claim C10: calling `add_download` with an identity already tracked (the
first case-insensitive match) unconditionally overwrites that entry's
destination with the new value and resets its state to `NotCopied` —
whatever the previous state was — making the entry pending (eligible for
copying) again. -/
theorem add_download_resets_existing (mem : List DownloadEntry) (h n : String)
    (d : Destination) (i : Nat) (e : DownloadEntry)
    (he : mem[i]? = some e)
    (hmatch : eqIgnoreAsciiCase e.info_hash h = true)
    (hfirst : ∀ j a, j < i → mem[j]? = some a →
      eqIgnoreAsciiCase a.info_hash h = false) :
    (add_download_ledger mem h n d)[i]? = some (setDestNotCopied d e) ∧
    (setDestNotCopied d e).destination = d ∧
    isPending (setDestNotCopied d e).copy_state = true := by
  refine ⟨?_, rfl, rfl⟩
  unfold add_download_ledger
  have hsome : (mem.find? fun e0 => eqIgnoreAsciiCase e0.info_hash h).isSome := by
    rw [List.find?_isSome]
    exact ⟨e, List.getElem?_mem he, hmatch⟩
  rw [if_pos hsome]
  exact updateFirst_getElem?_first he hmatch hfirst

theorem add_download_resets_existing_witness :
    (add_download_ledger [copiedEntry] "ab" "film" Destination.Movies)[0]? =
      some (setDestNotCopied Destination.Movies copiedEntry) ∧
    (setDestNotCopied Destination.Movies copiedEntry).destination
      = Destination.Movies ∧
    isPending (setDestNotCopied Destination.Movies copiedEntry).copy_state = true :=
  add_download_resets_existing [copiedEntry] "ab" "film" Destination.Movies 0
    copiedEntry rfl (by decide) (fun j a hj _ => absurd hj (Nat.not_lt_zero j))

/-- Claim C3 counterexample: with an empty in-memory ledger and a ledger
file containing one entry, `add_download` writes a file that differs from
the mutation applied to the file contents (so no reload happened) and that
has lost the file-only entry — the background loop's write is overwritten. -/
theorem add_download_no_reload_counterexample :
    (add_download_op [] [diskOnlyEntry] "ab" "film" Destination.Movies).2 ≠
      add_download_spec_disk [diskOnlyEntry] "ab" "film" Destination.Movies ∧
    diskOnlyEntry ∉ (add_download_op [] [diskOnlyEntry] "ab" "film"
      Destination.Movies).2 := by
  constructor
  · decide
  · decide

/-- Claim C3 (amended): `add_download` applies its update-or-append to the
long-lived in-memory ledger and overwrites the ledger file with that result,
without reloading the file first; consequently an entry present only in the
file — e.g. written by the background loop since startup — whose identity
matches neither the in-memory entries nor the added identity is absent from
the file it writes. -/
theorem add_download_writes_memory (mem disk : List DownloadEntry)
    (h n : String) (d : Destination) :
    (add_download_op mem disk h n d).2 = add_download_ledger mem h n d ∧
    (∀ e, e ∈ disk →
      (∀ m, m ∈ mem → eqIgnoreAsciiCase m.info_hash e.info_hash = false) →
      eqIgnoreAsciiCase e.info_hash h = false →
      e ∉ (add_download_op mem disk h n d).2) := by
  refine ⟨rfl, ?_⟩
  intro e _ hmem hh habs
  have habs' : e ∈ add_download_ledger mem h n d := habs
  unfold add_download_ledger at habs'
  by_cases hf : (mem.find? fun e0 => eqIgnoreAsciiCase e0.info_hash h).isSome
  · rw [if_pos hf] at habs'
    rcases mem_updateFirst habs' with hin | ⟨a, ha, rfl⟩
    · have := hmem e hin
      rw [eqIgnoreAsciiCase_refl] at this
      exact Bool.noConfusion this
    · have := hmem a ha
      have hsame : eqIgnoreAsciiCase a.info_hash (setDestNotCopied d a).info_hash
          = true := eqIgnoreAsciiCase_refl a.info_hash
      rw [hsame] at this
      exact Bool.noConfusion this
  · rw [if_neg hf] at habs'
    rcases List.mem_append.mp habs' with hin | hin
    · have := hmem e hin
      rw [eqIgnoreAsciiCase_refl] at this
      exact Bool.noConfusion this
    · rw [List.mem_singleton] at hin
      subst hin
      rw [eqIgnoreAsciiCase_refl] at hh
      exact Bool.noConfusion hh

theorem add_download_writes_memory_witness :
    (add_download_op [] [diskOnlyEntry] "ab" "film" Destination.Movies).2 =
      add_download_ledger [] "ab" "film" Destination.Movies ∧
    diskOnlyEntry ∉ (add_download_op [] [diskOnlyEntry] "ab" "film"
      Destination.Movies).2 :=
  ⟨(add_download_writes_memory [] [diskOnlyEntry] "ab" "film" Destination.Movies).1,
   (add_download_writes_memory [] [diskOnlyEntry] "ab" "film" Destination.Movies).2
     diskOnlyEntry (List.mem_singleton.mpr rfl)
     (fun m hm => absurd hm (List.not_mem_nil m)) (by decide)⟩

/-! ### Identity uniqueness (C8) -/

/-- No two ledger entries share a case-insensitive identity. -/
def UniqueIdentities (ledger : List DownloadEntry) : Prop :=
  ledger.Pairwise fun a b => eqIgnoreAsciiCase a.info_hash b.info_hash = false

theorem hashRel_setDestNotCopied_left (d : Destination) (a b : DownloadEntry)
    (hab : eqIgnoreAsciiCase a.info_hash b.info_hash = false) :
    eqIgnoreAsciiCase (setDestNotCopied d a).info_hash b.info_hash = false := hab

theorem hashRel_setDestNotCopied_right (d : Destination) (a b : DownloadEntry)
    (hab : eqIgnoreAsciiCase a.info_hash b.info_hash = false) :
    eqIgnoreAsciiCase a.info_hash (setDestNotCopied d b).info_hash = false := hab

theorem hashRel_setCopied_left (a b : DownloadEntry)
    (hab : eqIgnoreAsciiCase a.info_hash b.info_hash = false) :
    eqIgnoreAsciiCase (setCopied a).info_hash b.info_hash = false := hab

theorem hashRel_setCopied_right (a b : DownloadEntry)
    (hab : eqIgnoreAsciiCase a.info_hash b.info_hash = false) :
    eqIgnoreAsciiCase a.info_hash (setCopied b).info_hash = false := hab

theorem uniqueIdentities_add (ledger : List DownloadEntry) (h n : String)
    (d : Destination) (hu : UniqueIdentities ledger) :
    UniqueIdentities (add_download_ledger ledger h n d) := by
  unfold UniqueIdentities at hu ⊢
  unfold add_download_ledger
  by_cases hf : (ledger.find? fun e => eqIgnoreAsciiCase e.info_hash h).isSome
  · rw [if_pos hf]
    exact pairwise_updateFirst (hashRel_setDestNotCopied_left d)
      (hashRel_setDestNotCopied_right d) hu
  · rw [if_neg hf]
    rw [List.pairwise_append]
    refine ⟨hu, by simp, fun a ha b hb => ?_⟩
    rw [List.mem_singleton] at hb
    subst hb
    have hnone := Option.not_isSome_iff_eq_none.mp hf
    have := List.find?_eq_none.mp hnone a ha
    simpa using this

theorem uniqueIdentities_reconStep (config : TransmissionConfig) (fs : FS)
    (ledger : List DownloadEntry) (tt : TransTorrent)
    (hu : UniqueIdentities ledger) :
    UniqueIdentities (reconStep config fs ledger tt) := by
  cases hh : tt.hash_string with
  | none => simpa [reconStep, reconcileStep, hh] using hu
  | some hash =>
    cases hn : tt.name with
    | none => simpa [reconStep, reconcileStep, hh, hn] using hu
    | some name =>
      simp only [reconStep, reconcileStep, hh, hn]
      cases hf : ledger.find? (fun e0 => eqIgnoreAsciiCase e0.info_hash hash) with
      | some entry =>
        by_cases hcond : (isPending entry.copy_state &&
            check_already_copied config fs entry.destination name) = true
        · simp only [hcond, if_pos]
          exact pairwise_updateFirst hashRel_setCopied_left hashRel_setCopied_right hu
        · rw [Bool.not_eq_true] at hcond
          simp only [hcond, Bool.false_eq_true, if_false]
          exact hu
      | none =>
        cases hdet : detect_destination config fs name with
        | some pr =>
          obtain ⟨dest, st⟩ := pr
          simp only [hdet]
          unfold UniqueIdentities at hu ⊢
          rw [List.pairwise_append]
          refine ⟨hu, by simp, fun a ha b hb => ?_⟩
          rw [List.mem_singleton] at hb
          subst hb
          have := List.find?_eq_none.mp hf a ha
          simpa using this
        | none =>
          simp only [hdet]
          exact hu

theorem uniqueIdentities_foldl (config : TransmissionConfig) (fs : FS) :
    ∀ (ts : List TransTorrent) (ledger : List DownloadEntry),
      UniqueIdentities ledger →
      UniqueIdentities (ts.foldl (reconStep config fs) ledger) := by
  intro ts
  induction ts with
  | nil => intro l hu; exact hu
  | cons t ts ih =>
    intro l hu
    rw [List.foldl_cons]
    exact ih _ (uniqueIdentities_reconStep config fs l t hu)

theorem copyPhase_map_info_hash (config : TransmissionConfig)
    (torrents : List TransTorrent) (env : Nat → Oracle)
    (ledger : List DownloadEntry) :
    (copyPhase config torrents env ledger).map DownloadEntry.info_hash =
      ledger.map DownloadEntry.info_hash := by
  apply List.ext_getElem?
  intro i
  rw [List.getElem?_map, List.getElem?_map, copyPhase_getElem?]
  by_cases hmem : i ∈ pendingIdxs ledger
  · rw [if_pos hmem]
    cases ledger[i]? <;> simp [phaseUpdate]
  · rw [if_neg hmem]

theorem uniqueIdentities_copyPhase (config : TransmissionConfig)
    (torrents : List TransTorrent) (env : Nat → Oracle)
    (ledger : List DownloadEntry) (hu : UniqueIdentities ledger) :
    UniqueIdentities (copyPhase config torrents env ledger) := by
  have h1 : (ledger.map DownloadEntry.info_hash).Pairwise
      (fun x y => eqIgnoreAsciiCase x y = false) := List.pairwise_map.mpr hu
  rw [← copyPhase_map_info_hash config torrents env ledger] at h1
  exact List.pairwise_map.mp h1

/-- Claim C8: case-insensitive identity uniqueness is an invariant — it
holds of the empty ledger and is preserved by every ledger-mutating
operation: `add_download`'s update-or-append, the reconciliation pass
(stale-state fixes and auto-adoption), and the copy phase. -/
theorem identity_uniqueness_invariant :
    UniqueIdentities [] ∧
    (∀ ledger h n d, UniqueIdentities ledger →
      UniqueIdentities (add_download_ledger ledger h n d)) ∧
    (∀ config fs torrents ledger, UniqueIdentities ledger →
      UniqueIdentities (reconcile config fs torrents ledger)) ∧
    (∀ config torrents env ledger, UniqueIdentities ledger →
      UniqueIdentities (copyPhase config torrents env ledger)) :=
  ⟨List.Pairwise.nil,
   fun ledger h n d hu => uniqueIdentities_add ledger h n d hu,
   fun config fs ts l hu => by
     rw [reconcile_eq_foldl]
     exact uniqueIdentities_foldl config fs ts l hu,
   fun config ts env l hu => uniqueIdentities_copyPhase config ts env l hu⟩

theorem identity_uniqueness_invariant_witness :
    UniqueIdentities (add_download_ledger [] "ab" "film" Destination.Movies) ∧
    UniqueIdentities (reconcile sampleConfig sampleFS [sampleTorrent] [sampleEntry]) ∧
    UniqueIdentities (copyPhase sampleConfig [sampleTorrent]
      (fun _ => sampleOracle) [sampleEntry]) :=
  ⟨identity_uniqueness_invariant.2.1 [] "ab" "film" Destination.Movies
     identity_uniqueness_invariant.1,
   identity_uniqueness_invariant.2.2.1 sampleConfig sampleFS [sampleTorrent]
     [sampleEntry] (by simp [UniqueIdentities]),
   identity_uniqueness_invariant.2.2.2 sampleConfig [sampleTorrent]
     (fun _ => sampleOracle) [sampleEntry] (by simp [UniqueIdentities])⟩

/-! ### Copy candidacy (C2) -/

theorem copyCandidate_iff_aux (config : TransmissionConfig)
    (torrents : List TransTorrent) (fs : FS) (e : DownloadEntry)
    (hdom : ∀ t ∈ torrents, ∀ p, t.percent_done = some p → p ≤ 1) :
    copyCandidate config torrents fs e = true ↔
      (isPending e.copy_state = true ∧
        ∃ t, findTorrent torrents e.info_hash = some t ∧
          t.percent_done.getD 0 = 1 ∧ t.download_dir ≠ none) := by
  unfold copyCandidate processEntry
  cases hft : findTorrent torrents e.info_hash with
  | none => simp
  | some t =>
    dsimp only
    have ht : t ∈ torrents := List.mem_of_find?_eq_some hft
    have hle : t.percent_done.getD 0 ≤ 1 := by
      cases hp : t.percent_done with
      | none => simp
      | some p => simpa using hdom t ht p hp
    by_cases hlt : t.percent_done.getD 0 < 1
    · rw [if_pos hlt]
      have hne : ¬ t.percent_done.getD 0 = 1 := by
        intro h1
        rw [h1] at hlt
        exact lt_irrefl 1 hlt
      simp [hne]
    · rw [if_neg hlt]
      have h1 : t.percent_done.getD 0 = 1 := le_antisymm hle (not_lt.mp hlt)
      cases hdd : t.download_dir with
      | none => simp [hdd]
      | some dd =>
        cases hdf : config.dir_for e.destination with
        | none =>
          dsimp only
          simp [h1, hdd]
        | some dest_dir =>
          dsimp only
          by_cases hde : dest_dir ≠ ""
          · rw [if_pos hde]
            by_cases hdst : fs (joinPath dest_dir (t.name.getD e.name)) = true
            · rw [if_pos hdst]
              simp [h1, hdd]
            · rw [if_neg hdst]
              by_cases hsrc : fs (joinPath dd (t.name.getD e.name)) = true
              · rw [if_pos hsrc]
                simp [h1, hdd]
              · rw [if_neg hsrc]
                simp [h1, hdd]
          · rw [if_neg hde]
            simp [h1, hdd]

/-- Claim C2: in every cycle an entry is selected as a copy candidate iff it
is pending (`NotCopied`/`Failed`), a live torrent with the same identity
(case-insensitive) was returned, that torrent's completion fraction is
exactly 1.0 (fractions being at most 1.0 by the daemon's contract) and the
daemon reports a source directory for it; an entry failing any of these is
skipped with its state unchanged, and an entry in state `Copying` is never a
candidate. -/
theorem copy_candidate_iff (config : TransmissionConfig)
    (torrents : List TransTorrent) (fs : FS) (env : Nat → Oracle)
    (ledger : List DownloadEntry) (i : Nat) (e : DownloadEntry)
    (hdom : ∀ t ∈ torrents, ∀ p, t.percent_done = some p → p ≤ 1) :
    (copyCandidate config torrents fs e = true ↔
      (isPending e.copy_state = true ∧
        ∃ t, findTorrent torrents e.info_hash = some t ∧
          t.percent_done.getD 0 = 1 ∧ t.download_dir ≠ none)) ∧
    (e.copy_state = CopyState.Copying →
      copyCandidate config torrents fs e = false) ∧
    (ledger[i]? = some e → (env i).fs = fs →
      copyCandidate config torrents fs e = false →
      (copyPhase config torrents env ledger)[i]? = some e) := by
  refine ⟨copyCandidate_iff_aux config torrents fs e hdom, ?_, ?_⟩
  · intro hcopying
    unfold copyCandidate
    rw [hcopying]
    rfl
  · intro he hfsi hcand
    by_cases hp : isPending e.copy_state = true
    · rw [copyPhase_pending he hp]
      have hM : (match processEntry config torrents fs e with
          | EntryAction.skipNoTorrent => false
          | EntryAction.skipNotDone => false
          | EntryAction.skipNoDownloadDir => false
          | _ => true) = false := by
        unfold copyCandidate at hcand
        rw [hp, Bool.true_and] at hcand
        exact hcand
      congr 1
      unfold phaseUpdate
      rw [hfsi]
      cases hact : processEntry config torrents fs e with
      | skipNoTorrent => rfl
      | skipNotDone => rfl
      | skipNoDownloadDir => rfl
      | skipNoDestDir => rw [hact] at hM; cases hM
      | markCopied dst => rw [hact] at hM; cases hM
      | skipNoSource src => rw [hact] at hM; cases hM
      | doCopy src dst => rw [hact] at hM; cases hM
    · rw [Bool.not_eq_true] at hp
      exact copyPhase_notPending he hp

theorem copy_candidate_iff_witness :
    (copyCandidate sampleConfig [sampleTorrent] sampleFS sampleEntry = true ↔
      (isPending sampleEntry.copy_state = true ∧
        ∃ t, findTorrent [sampleTorrent] sampleEntry.info_hash = some t ∧
          t.percent_done.getD 0 = 1 ∧ t.download_dir ≠ none)) ∧
    (sampleEntry.copy_state = CopyState.Copying →
      copyCandidate sampleConfig [sampleTorrent] sampleFS sampleEntry = false) ∧
    ([sampleEntry][0]? = some sampleEntry →
      ((fun _ => sampleOracle) 0 : Oracle).fs = sampleFS →
      copyCandidate sampleConfig [sampleTorrent] sampleFS sampleEntry = false →
      (copyPhase sampleConfig [sampleTorrent] (fun _ => sampleOracle)
        [sampleEntry])[0]? = some sampleEntry) :=
  copy_candidate_iff sampleConfig [sampleTorrent] sampleFS (fun _ => sampleOracle)
    [sampleEntry] 0 sampleEntry
    (by
      intro t ht p hp
      rw [List.mem_singleton] at ht
      subst ht
      obtain rfl := Option.some.inj hp
      exact le_refl 1)

/-! ### Copy failure cleanup (C4) -/

/-- Claim C4 counterexample: the cleanup after a failed copy discards the
removal's own result (`let _ = remove_dir_all/remove_file`), so when that
removal fails the destination path still exists afterwards even though the
entry is `Failed` — the claimed unconditional deletion does not hold.  Here
the failed copy has left the destination behind (`fsAfterCopy` contains it)
and the removal fails (`removeOk = false`). -/
theorem copy_failure_cleanup_counterexample :
    processEntry sampleConfig [sampleTorrent] sampleFS sampleEntry
      = EntryAction.doCopy "/dl/film" "/movies/film" ∧
    (runAction sampleEntry.copy_state sampleFS false
      (fun q => q == "/movies/film") false
      (processEntry sampleConfig [sampleTorrent] sampleFS sampleEntry)).state
      = CopyState.Failed ∧
    (runAction sampleEntry.copy_state sampleFS false
      (fun q => q == "/movies/film") false
      (processEntry sampleConfig [sampleTorrent] sampleFS sampleEntry)).fsOut
      "/movies/film" = true := by
  refine ⟨by decide, by decide, by decide⟩

/-- Claim C4 (amended): when the per-entry decision chain reaches a real
copy attempt (`doCopy`) and the recursive copy fails, the entry's state
becomes `Failed` and the last state persisted to the ledger file is `Failed`;
deletion of the destination is attempted whenever it exists, but the
removal's own error is discarded, so the destination is absent afterwards
exactly when the removal succeeds (and then, on a well-formed filesystem,
so is everything under it) or when the failed copy never created it. -/
theorem copy_failure_cleanup (config : TransmissionConfig)
    (torrents : List TransTorrent) (fs fsAfter : FS) (removeOk : Bool)
    (e : DownloadEntry) (src dst : String)
    (hact : processEntry config torrents fs e = EntryAction.doCopy src dst) :
    (runAction e.copy_state fs false fsAfter removeOk
      (processEntry config torrents fs e)).state = CopyState.Failed ∧
    (runAction e.copy_state fs false fsAfter removeOk
      (processEntry config torrents fs e)).persisted.getLast?
      = some CopyState.Failed ∧
    (removeOk = true →
      (runAction e.copy_state fs false fsAfter removeOk
        (processEntry config torrents fs e)).fsOut dst = false ∧
      (FSWellFormed fsAfter → ∀ q, pathWithin dst q = true →
        (runAction e.copy_state fs false fsAfter removeOk
          (processEntry config torrents fs e)).fsOut q = false)) ∧
    (fsAfter dst = false →
      (runAction e.copy_state fs false fsAfter removeOk
        (processEntry config torrents fs e)).fsOut dst = false) := by
  rw [hact]
  refine ⟨rfl, rfl, ?_, ?_⟩
  · rintro rfl
    constructor
    · show copyCleanup true dst fsAfter dst = false
      unfold copyCleanup
      by_cases hd : fsAfter dst = true
      · rw [if_pos hd, if_pos rfl]
        simp [removeRec]
      · rw [if_neg hd]
        simpa using hd
    · intro hwf q hq
      show copyCleanup true dst fsAfter q = false
      unfold copyCleanup
      by_cases hd : fsAfter dst = true
      · rw [if_pos hd, if_pos rfl]
        simp [removeRec, hq]
      · rw [if_neg hd]
        by_cases hqq : fsAfter q = true
        · exact absurd (hwf dst q hq hqq) (by simpa using hd)
        · simpa using hqq
  · intro hnd
    show copyCleanup removeOk dst fsAfter dst = false
    unfold copyCleanup
    rw [if_neg (by simp [hnd])]
    exact hnd

theorem copy_failure_cleanup_witness :
    (runAction sampleEntry.copy_state sampleFS false (fun _ => false) true
      (processEntry sampleConfig [sampleTorrent] sampleFS sampleEntry)).state
      = CopyState.Failed ∧
    (runAction sampleEntry.copy_state sampleFS false (fun _ => false) true
      (processEntry sampleConfig [sampleTorrent] sampleFS sampleEntry)).persisted.getLast?
      = some CopyState.Failed ∧
    (true = true →
      (runAction sampleEntry.copy_state sampleFS false (fun _ => false) true
        (processEntry sampleConfig [sampleTorrent] sampleFS sampleEntry)).fsOut
        "/movies/film" = false ∧
      (FSWellFormed (fun _ => false) → ∀ q, pathWithin "/movies/film" q = true →
        (runAction sampleEntry.copy_state sampleFS false (fun _ => false) true
          (processEntry sampleConfig [sampleTorrent] sampleFS sampleEntry)).fsOut
          q = false)) ∧
    ((fun _ => false : FS) "/movies/film" = false →
      (runAction sampleEntry.copy_state sampleFS false (fun _ => false) true
        (processEntry sampleConfig [sampleTorrent] sampleFS sampleEntry)).fsOut
        "/movies/film" = false) :=
  copy_failure_cleanup sampleConfig [sampleTorrent] sampleFS (fun _ => false)
    true sampleEntry "/dl/film" "/movies/film" (by decide)

/-! ### Copy-state edge discipline (C1) -/

theorem add_download_getElem? (mem : List DownloadEntry) (h n : String)
    (d : Destination) (i : Nat) (e : DownloadEntry) (he : mem[i]? = some e) :
    ∃ e', (add_download_ledger mem h n d)[i]? = some e' ∧
      (e' = e ∨ e' = setDestNotCopied d e) := by
  unfold add_download_ledger
  by_cases hf : (mem.find? fun e0 => eqIgnoreAsciiCase e0.info_hash h).isSome
  · rw [if_pos hf]
    rcases getElem?_updateFirst (fun e0 => eqIgnoreAsciiCase e0.info_hash h)
        (setDestNotCopied d) mem i with hsame | ⟨a, ha, ha', hpa, hfind⟩
    · exact ⟨e, by rw [hsame, he], Or.inl rfl⟩
    · rw [he] at ha
      obtain rfl := Option.some.inj ha
      exact ⟨_, ha', Or.inr rfl⟩
  · rw [if_neg hf]
    exact ⟨e, getElem?_append_of_some he, Or.inl rfl⟩

theorem runAction_chain (s : CopyState) (fs : FS) (copyOk : Bool) (fsAfter : FS)
    (removeOk : Bool) (a : EntryAction) (hs : isPending s = true) :
    List.Chain' (fun x y => cycleEdge x y = true)
      (s :: (runAction s fs copyOk fsAfter removeOk a).persisted) ∧
    (s :: (runAction s fs copyOk fsAfter removeOk a).persisted).getLast? =
      some (runAction s fs copyOk fsAfter removeOk a).state := by
  cases s with
  | Copying => simp [isPending] at hs
  | Copied => simp [isPending] at hs
  | NotCopied =>
    cases a <;> cases copyOk <;> refine ⟨?_, rfl⟩ <;>
      simp [runAction, cycleEdge, List.chain'_cons, List.chain'_singleton]
  | Failed =>
    cases a <;> cases copyOk <;> refine ⟨?_, rfl⟩ <;>
      simp [runAction, cycleEdge, List.chain'_cons, List.chain'_singleton]

/-- Claim C1 (amended): under the background cycle each entry's persisted
`copy_state` moves only along the claimed edges {NotCopied→Copying,
Copying→Copied, Copying→Failed, Failed→Copying} extended with the direct
pending-to-`Copied` edges {NotCopied→Copied, Failed→Copied} taken by
reconciliation and by the already-at-destination short circuit, and an entry
in `Copied` is never changed by the cycle; the externally-triggered
add/update command is the exception — it may reset the matched entry, from
any state including `Copied`, to `NotCopied`. -/
theorem copy_state_edges (config : TransmissionConfig) (fs : FS)
    (torrents : List TransTorrent) (env : Nat → Oracle)
    (ledger : List DownloadEntry) (i : Nat) (e : DownloadEntry)
    (h n : String) (d : Destination)
    (he : ledger[i]? = some e) :
    (∃ e', (reconcile config fs torrents ledger)[i]? = some e' ∧
      (e'.copy_state = e.copy_state ∨
        cycleEdge e.copy_state e'.copy_state = true) ∧
      (e.copy_state = CopyState.Copied → e' = e)) ∧
    (∃ e', (copyPhase config torrents env ledger)[i]? = some e' ∧
      (isPending e.copy_state = false → e' = e) ∧
      (isPending e.copy_state = true →
        List.Chain' (fun x y => cycleEdge x y = true)
          (e.copy_state :: (runAction e.copy_state (env i).fs (env i).copyOk
            (env i).fsAfter (env i).removeOk
            (processEntry config torrents (env i).fs e)).persisted) ∧
        (e.copy_state :: (runAction e.copy_state (env i).fs (env i).copyOk
            (env i).fsAfter (env i).removeOk
            (processEntry config torrents (env i).fs e)).persisted).getLast?
          = some e'.copy_state)) ∧
    (∃ e', (add_download_ledger ledger h n d)[i]? = some e' ∧
      (e' = e ∨ e' = setDestNotCopied d e)) := by
  refine ⟨?_, ?_, add_download_getElem? ledger h n d i e he⟩
  · obtain ⟨e', he', hrel⟩ := reconcile_getElem? config fs torrents ledger i e he
    refine ⟨e', he', ?_, ?_⟩
    · rcases hrel with rfl | ⟨hp, rfl⟩
      · exact Or.inl rfl
      · right
        cases hcs : e.copy_state with
        | NotCopied => rfl
        | Copying => rw [hcs] at hp; simp [isPending] at hp
        | Copied => rw [hcs] at hp; simp [isPending] at hp
        | Failed => rfl
    · intro hcopied
      rcases hrel with rfl | ⟨hp, rfl⟩
      · rfl
      · rw [hcopied] at hp
        simp [isPending] at hp
  · by_cases hp : isPending e.copy_state = true
    · rw [copyPhase_pending he hp]
      refine ⟨_, rfl, ?_, ?_⟩
      · intro hfalse
        rw [hp] at hfalse
        cases hfalse
      · intro _
        exact runAction_chain e.copy_state (env i).fs (env i).copyOk
          (env i).fsAfter (env i).removeOk
          (processEntry config torrents (env i).fs e) hp
    · rw [Bool.not_eq_true] at hp
      rw [copyPhase_notPending he hp]
      refine ⟨e, rfl, fun _ => rfl, fun htrue => ?_⟩
      rw [hp] at htrue
      cases htrue

/-- A filesystem in which the entry's files are already present at the
destination directory. -/
def destFS : FS := fun q => q == "/movies/film"

/-- Claim C1 counterexample: `add_download` on an entry whose state is the
supposedly absorbing `Copied` resets it to `NotCopied`, and reconciliation
rewrites a `NotCopied` entry whose files already sit at the destination
directly to `Copied` — two transitions outside the claimed edge set. -/
theorem copy_state_edges_counterexample :
    (((add_download_ledger [copiedEntry] "ab" "film" Destination.Movies)[0]?).map
        DownloadEntry.copy_state = some CopyState.NotCopied ∧
      copiedEntry.copy_state = CopyState.Copied ∧
      claimEdge CopyState.Copied CopyState.NotCopied = false) ∧
    (((reconcile sampleConfig destFS [sampleTorrent] [sampleEntry])[0]?).map
        DownloadEntry.copy_state = some CopyState.Copied ∧
      sampleEntry.copy_state = CopyState.NotCopied ∧
      claimEdge CopyState.NotCopied CopyState.Copied = false) := by
  refine ⟨⟨?_, rfl, rfl⟩, ⟨?_, rfl, rfl⟩⟩
  · decide
  · decide

theorem copy_state_edges_witness :
    (∃ e', (reconcile sampleConfig sampleFS [sampleTorrent] [sampleEntry])[0]?
        = some e' ∧
      (e'.copy_state = sampleEntry.copy_state ∨
        cycleEdge sampleEntry.copy_state e'.copy_state = true) ∧
      (sampleEntry.copy_state = CopyState.Copied → e' = sampleEntry)) ∧
    (∃ e', (copyPhase sampleConfig [sampleTorrent] (fun _ => sampleOracle)
        [sampleEntry])[0]? = some e' ∧
      (isPending sampleEntry.copy_state = false → e' = sampleEntry) ∧
      (isPending sampleEntry.copy_state = true →
        List.Chain' (fun x y => cycleEdge x y = true)
          (sampleEntry.copy_state :: (runAction sampleEntry.copy_state
            sampleOracle.fs sampleOracle.copyOk sampleOracle.fsAfter
            sampleOracle.removeOk
            (processEntry sampleConfig [sampleTorrent] sampleOracle.fs
              sampleEntry)).persisted) ∧
        (sampleEntry.copy_state :: (runAction sampleEntry.copy_state
            sampleOracle.fs sampleOracle.copyOk sampleOracle.fsAfter
            sampleOracle.removeOk
            (processEntry sampleConfig [sampleTorrent] sampleOracle.fs
              sampleEntry)).persisted).getLast? = some e'.copy_state)) ∧
    (∃ e', (add_download_ledger [sampleEntry] "ab" "film"
        Destination.Movies)[0]? = some e' ∧
      (e' = sampleEntry ∨ e' = setDestNotCopied Destination.Movies sampleEntry)) :=
  copy_state_edges sampleConfig sampleFS [sampleTorrent] (fun _ => sampleOracle)
    [sampleEntry] 0 sampleEntry "ab" "film" Destination.Movies rfl

end Privateer
